import Mathlib

/-!
Shallow embedding of `src/spellcheck.py` (repository `spellcheck_with_trie`).

The Python program classifies the distinct lowercase `\w+` tokens of an input
text against the token set of a dictionary text.  `ProcessFiles.process_input`
buckets the tokens of a text by their first character into a dict mapping the
character to the set of tokens beginning with it; `SpellCheck.read_dictionary`
compares the input buckets against the dictionary buckets and returns the
sorted list of input tokens that are absent from the dictionary, skipping any
bucket whose key character is a digit and does not occur among the dictionary
bucket keys.  `ProcessFiles.check_file_format` returns the ratio of line count
to word count of a source.

Python semantics embedded here (ASCII text is assumed throughout, as stated by
the spec): `re.findall(r'\w+', text)` is the list of maximal runs of
characters from `[A-Za-z0-9_]`; `str.lower()` maps each character through the
basic-latin lowercasing; Python `dict` preserves key insertion order; a Python
`set` is modelled as a duplicate-free list (iteration order of a set is
arbitrary in Python, and every theorem below is insensitive to the order of a
bucket's elements); string comparison is lexicographic on code points;
`str.isdigit()` on an ASCII character tests `0`-`9`; division by zero raises,
modelled as `Option.none`.
-/

namespace Spellcheck

/-- Python `\w` character class restricted to ASCII: letters, digits, underscore. -/
def isWordChar (c : Char) : Bool :=
  c.isAlpha || c.isDigit || c = '_'

/-- Maximal runs of characters satisfying `p`, scanning left to right with an
accumulator of the (reversed) run in progress.  This is the common shape of
`re.findall(r'\w+', s)` and of `str.split()` (runs of non-whitespace). -/
def runsAux (p : Char → Bool) (acc : List Char) : List Char → List (List Char)
  | [] => if acc.isEmpty then [] else [acc.reverse]
  | c :: cs =>
    if p c then runsAux p (c :: acc) cs
    else if acc.isEmpty then runsAux p [] cs
    else acc.reverse :: runsAux p [] cs

/-- Embedding of `re.findall(r'\w+', file_content)` in `process_input`. -/
def findAllWords (text : String) : List String :=
  (runsAux isWordChar [] text.data).map (fun cs => String.mk cs)

/-- Embedding of `[word.lower() for word in word_list]` in `process_input`. -/
def lowerWords (text : String) : List String :=
  (findAllWords text).map (fun w => String.mk (w.data.map Char.toLower))

/-- The structure built by `process_input`: an insertion-ordered association
list from a first character to the bucket of tokens beginning with it
(Python: `dict` from `char` to `set` of words). -/
abbrev Buckets := List (Char × List String)

/-- Embedding of Python `word[0]` on the tokens of this program; tokens coming
out of the tokenizer are never empty, so the default is never exercised there. -/
def firstChar (w : String) : Char :=
  w.data.headD ' '

/-- Association-list lookup of a bucket (Python `d[k]` / `k in d.keys()`). -/
def bucketFind : Buckets → Char → Option (List String)
  | [], _ => none
  | (k, ws) :: rest, c => if k = c then some ws else bucketFind rest c

/-- The bucket stored under a key, empty when the key is absent. -/
def getBucket (b : Buckets) (c : Char) : List String :=
  (bucketFind b c).getD []

/-- Embedding of `d.keys()`: the keys in insertion order. -/
def bucketKeys (b : Buckets) : List Char :=
  b.map Prod.fst

/-- One iteration of the loop body of `process_input`: if the key is absent a
fresh singleton bucket is appended, otherwise the word is added to the existing
bucket unless already present (`set.add`). -/
def addToBucket : Buckets → Char → String → Buckets
  | [], k, w => [(k, [w])]
  | (k0, ws) :: rest, k, w =>
    if k0 = k then (k0, if w ∈ ws then ws else ws ++ [w]) :: rest
    else (k0, ws) :: addToBucket rest k w

/-- Inserting one token into the bucket structure under its first character. -/
def insertToken (b : Buckets) (w : String) : Buckets :=
  addToBucket b (firstChar w) w

/-- The `for word in word_list` loop of `process_input`, starting from a given
structure. -/
def buildBuckets (ws : List String) : Buckets :=
  ws.foldl insertToken []

/-- Embedding of `ProcessFiles.process_input`: tokenize, lowercase, bucket. -/
def processInput (text : String) : Buckets :=
  buildBuckets (lowerWords text)

/-- Membership of a token in the bucket structure: the token is present in the
bucket of its own first character.  This is the vocabulary-membership query the
classifier performs (`words not in self.processed_dictionary[keys]`). -/
def containsToken (b : Buckets) (w : String) : Bool :=
  decide (w ∈ getBucket b (firstChar w))

/-- Lexicographic comparison of code-point sequences: the embedding of Python
string comparison used by `sorted`. -/
def lexLe : List Char → List Char → Bool
  | [], _ => true
  | _ :: _, [] => false
  | a :: as, b :: bs =>
    if a.toNat < b.toNat then true
    else if b.toNat < a.toNat then false
    else lexLe as bs

/-- Python `<=` on strings. -/
def strLeB (a b : String) : Bool :=
  lexLe a.data b.data

/-- Embedding of Python `sorted` on a list of strings. -/
def sortTokens (l : List String) : List String :=
  List.insertionSort (fun a b => strLeB a b = true) l

/-- Embedding of Python `sorted` on a list of single-character keys. -/
def sortChars (l : List Char) : List Char :=
  List.insertionSort (fun a b => a.toNat ≤ b.toNat) l

/-- Embedding of `SpellCheck.read_dictionary`.  `shared_keys` are the input
bucket keys also present among the dictionary keys, `missing_keys` the rest;
missing keys whose character is a digit are dropped (`key.isdigit()`); words
under shared keys are reported when absent from the dictionary bucket of the
same key; words under the remaining missing keys are all reported; the
collected words are returned sorted. -/
def readDictionary (inp dict : Buckets) : List String :=
  let sharedKeys := sortChars ((bucketKeys inp).filter
    (fun k => decide (k ∈ bucketKeys dict)))
  let missingKeys := sortChars ((bucketKeys inp).filter
    (fun k => decide (k ∉ bucketKeys dict)))
  let alphaMissingKeys := missingKeys.filter (fun k => ! k.isDigit)
  let fromShared := sharedKeys.flatMap
    (fun k => (getBucket inp k).filter (fun w => decide (w ∉ getBucket dict k)))
  let fromMissing := alphaMissingKeys.flatMap (fun k => getBucket inp k)
  sortTokens (fromShared ++ fromMissing)

/-- Classification of an input token list against a dictionary token list:
both sides are bucketed exactly as the program buckets its two files, then
`read_dictionary` runs. -/
def classifyTokens (inputTokens dictTokens : List String) : List String :=
  readDictionary (buildBuckets inputTokens) (buildBuckets dictTokens)

/-- The whole text-level pipeline of `main`: `process_input` on both files,
then `read_dictionary`. -/
def spellcheck (inputText dictText : String) : List String :=
  readDictionary (processInput inputText) (processInput dictText)

/-- A token matching `^[0-9]+$`: nonempty and purely numeric. -/
def isNumericToken (w : String) : Bool :=
  !w.data.isEmpty && w.data.all (fun c => c.isDigit)

/-- Words of a line in the sense of Python `line.split()`: maximal runs of
non-whitespace characters. -/
def splitPlainWords (line : String) : List String :=
  (runsAux (fun c => ! c.isWhitespace) [] line.data).map (fun cs => String.mk cs)

/-- Total number of `line.split()` words over the lines of a source, as summed
by `check_file_format`. -/
def totalWords (lines : List String) : Nat :=
  (lines.map (fun l => (splitPlainWords l).length)).sum

/-- Embedding of `ProcessFiles.check_file_format`: the ratio of the number of
lines to the number of words.  The Python code computes
`number_of_lines/number_of_words` unguarded; a zero word count raises
`ZeroDivisionError`, modelled as `none`. -/
def checkFileFormat (lines : List String) : Option ℚ :=
  let numberOfLines := lines.length
  let numberOfWords := totalWords lines
  if numberOfWords = 0 then none
  else some ((numberOfLines : ℚ) / (numberOfWords : ℚ))

/-- Modelled from the spec: the repository name and §3/§4.2 of the spec
describe a second, prefix-tree variant of the vocabulary structure
(`VocabularyIndex`: a rooted tree with one edge per character and an
is-end-of-word marker per node, nodes created lazily on insertion), but that
variant is not among the files under `src/`.  The tree is modelled here
faithfully to the spec's words. -/
inductive Trie where
  | node (isEnd : Bool) (children : List (Char × Trie))

/-- Lookup of the child edge labeled by a character. -/
def childrenFind : List (Char × Trie) → Char → Option Trie
  | [], _ => none
  | (k, t) :: rest, c => if k = c then some t else childrenFind rest c

/-- Replacing the child reached along a character edge. -/
def childrenReplace : List (Char × Trie) → Char → Trie → List (Char × Trie)
  | [], _, _ => []
  | (k, t) :: rest, c, t2 =>
    if k = c then (k, t2) :: rest else (k, t) :: childrenReplace rest c t2

/-- Modelled from the spec: `VocabularyIndex.insert` walks the edges spelled by
the token, creating missing nodes lazily, and marks the final node as
end-of-word.  The recursion is structural on the token. -/
def trieInsert : List Char → Trie → Trie
  | [], .node _ ch => .node true ch
  | c :: cs, .node e ch =>
    match childrenFind ch c with
    | some t => .node e (childrenReplace ch c (trieInsert cs t))
    | none => .node e (ch ++ [(c, trieInsert cs (.node false []))])

/-- Modelled from the spec: `VocabularyIndex.contains` follows the edge
sequence spelled by the token and reads the end-of-word marker, answering
false as soon as an edge is missing. -/
def trieContains : List Char → Trie → Bool
  | [], .node e _ => e
  | c :: cs, .node _ ch =>
    match childrenFind ch c with
    | some t => trieContains cs t
    | none => false

/-- Cost of a `contains` query, counting the nodes visited: one for the node
at hand plus the cost of the recursive step along the child edge. -/
def trieContainsSteps : List Char → Trie → Nat
  | [], _ => 1
  | c :: cs, .node _ ch =>
    1 + (match childrenFind ch c with
         | some t => trieContainsSteps cs t
         | none => 0)

/-- Building the vocabulary tree by inserting every dictionary token into the
initially empty root. -/
def buildTrie (tokens : List String) : Trie :=
  tokens.foldl (fun t w => trieInsert w.data t) (.node false [])

/-- Inserting the same token repeatedly into the bucket structure. -/
def repeatInsert : Nat → Buckets → String → Buckets
  | 0, b, _ => b
  | n + 1, b, w => insertToken (repeatInsert n b w) w

/-! Basic facts about the code-point order used by `sorted`. -/

theorem lexLe_total (a b : List Char) : lexLe a b = true ∨ lexLe b a = true := by
  induction a generalizing b with
  | nil => left; rfl
  | cons x xs ih =>
    cases b with
    | nil => right; rfl
    | cons y ys =>
      unfold lexLe
      rcases Nat.lt_trichotomy x.toNat y.toNat with h | h | h
      · left; simp [h]
      · simp [h, Nat.lt_irrefl]
        exact ih ys
      · right; simp [h, Nat.not_lt.mpr (Nat.le_of_lt h)]

theorem lexLe_trans (a b c : List Char) (hab : lexLe a b = true)
    (hbc : lexLe b c = true) : lexLe a c = true := by
  induction a generalizing b c with
  | nil => rfl
  | cons x xs ih =>
    cases b with
    | nil => simp [lexLe] at hab
    | cons y ys =>
      cases c with
      | nil => simp [lexLe] at hbc
      | cons z zs =>
        unfold lexLe at hab hbc ⊢
        rcases Nat.lt_trichotomy x.toNat y.toNat with h1 | h1 | h1
        · rcases Nat.lt_trichotomy y.toNat z.toNat with h2 | h2 | h2
          · simp [show x.toNat < z.toNat by omega]
          · simp [show x.toNat < z.toNat by omega]
          · rw [if_neg (by omega : ¬ y.toNat < z.toNat), if_pos h2] at hbc
            simp at hbc
        · rcases Nat.lt_trichotomy y.toNat z.toNat with h2 | h2 | h2
          · simp [show x.toNat < z.toNat by omega]
          · simp only [show ¬ x.toNat < z.toNat by omega, if_false,
              show ¬ z.toNat < x.toNat by omega]
            simp only [show ¬ x.toNat < y.toNat by omega, if_false,
              show ¬ y.toNat < x.toNat by omega] at hab
            simp only [show ¬ y.toNat < z.toNat by omega, if_false,
              show ¬ z.toNat < y.toNat by omega] at hbc
            exact ih ys zs hab hbc
          · rw [if_neg (by omega : ¬ y.toNat < z.toNat), if_pos h2] at hbc
            simp at hbc
        · rw [if_neg (by omega : ¬ x.toNat < y.toNat), if_pos h1] at hab
          simp at hab

theorem mem_sortTokens (l : List String) (x : String) :
    x ∈ sortTokens l ↔ x ∈ l :=
  (List.perm_insertionSort _ l).mem_iff

theorem mem_sortChars (l : List Char) (k : Char) :
    k ∈ sortChars l ↔ k ∈ l :=
  (List.perm_insertionSort _ l).mem_iff

theorem sorted_sortTokens (l : List String) :
    List.Sorted (fun a b => strLeB a b = true) (sortTokens l) := by
  have ht : IsTotal String (fun a b => strLeB a b = true) :=
    ⟨fun a b => lexLe_total a.data b.data⟩
  have htr : IsTrans String (fun a b => strLeB a b = true) :=
    ⟨fun a b c => lexLe_trans a.data b.data c.data⟩
  exact List.sorted_insertionSort _ l

/-! Character-class facts, phrased on code points. -/

theorem char_toNat_ofNat (n : Nat) (h : n.isValidChar) : (Char.ofNat n).toNat = n := by
  rw [Char.ofNat, dif_pos h]
  rfl

theorem char_toNat_inj (c d : Char) (h : c.toNat = d.toNat) : c = d := by
  apply Char.eq_of_val_eq
  exact UInt32.ext h

theorem isDigit_iff (c : Char) : c.isDigit = true ↔ 48 ≤ c.toNat ∧ c.toNat ≤ 57 := by
  simp only [Char.isDigit, Bool.and_eq_true, decide_eq_true_eq]
  rfl

theorem isUpper_iff (c : Char) : c.isUpper = true ↔ 65 ≤ c.toNat ∧ c.toNat ≤ 90 := by
  simp only [Char.isUpper, Bool.and_eq_true, decide_eq_true_eq]
  rfl

theorem isLower_iff (c : Char) : c.isLower = true ↔ 97 ≤ c.toNat ∧ c.toNat ≤ 122 := by
  simp only [Char.isLower, Bool.and_eq_true, decide_eq_true_eq]
  rfl

theorem isWordChar_iff (c : Char) :
    isWordChar c = true ↔
      (65 ≤ c.toNat ∧ c.toNat ≤ 90) ∨ (97 ≤ c.toNat ∧ c.toNat ≤ 122) ∨
      (48 ≤ c.toNat ∧ c.toNat ≤ 57) ∨ c.toNat = 95 := by
  have h95 : (c = '_') ↔ c.toNat = 95 := by
    constructor
    · rintro rfl; rfl
    · intro h; exact char_toNat_inj c '_' h
  simp only [isWordChar, Char.isAlpha, Bool.or_eq_true, isUpper_iff, isLower_iff,
    isDigit_iff, decide_eq_true_eq, h95, or_assoc]

theorem toLower_toNat_of_upper (c : Char) (h1 : 65 ≤ c.toNat) (h2 : c.toNat ≤ 90) :
    (Char.toLower c).toNat = c.toNat + 32 := by
  unfold Char.toLower
  rw [if_pos ⟨h1, h2⟩]
  exact char_toNat_ofNat _ (Or.inl (by omega))

theorem toLower_eq_self (c : Char) (h : ¬ (65 ≤ c.toNat ∧ c.toNat ≤ 90)) :
    Char.toLower c = c := by
  unfold Char.toLower
  rw [if_neg h]

theorem isWordChar_toLower (c : Char) (h : isWordChar c = true) :
    isWordChar (Char.toLower c) = true ∧ (Char.toLower c).isUpper = false := by
  by_cases hu : 65 ≤ c.toNat ∧ c.toNat ≤ 90
  · have ht := toLower_toNat_of_upper c hu.1 hu.2
    constructor
    · rw [isWordChar_iff, ht]
      right; left
      omega
    · rw [← Bool.not_eq_true, isUpper_iff, ht]
      omega
  · rw [toLower_eq_self c hu]
    refine ⟨h, ?_⟩
    rw [← Bool.not_eq_true, isUpper_iff]
    omega

/-! The tokenizer emits nonempty runs of characters satisfying the scanned
predicate. -/

theorem runsAux_mem (p : Char → Bool) (l : List Char) (acc : List Char)
    (hacc : ∀ c ∈ acc, p c = true) (r : List Char) (hr : r ∈ runsAux p acc l) :
    r ≠ [] ∧ ∀ c ∈ r, p c = true := by
  induction l generalizing acc with
  | nil =>
    rw [runsAux] at hr
    by_cases ha : acc.isEmpty
    · rw [if_pos ha] at hr
      simp at hr
    · rw [if_neg ha] at hr
      simp only [List.mem_singleton] at hr
      subst hr
      refine ⟨?_, ?_⟩
      · simp only [ne_eq, List.reverse_eq_nil_iff]
        intro hc
        rw [hc] at ha
        exact ha rfl
      · intro c hc
        exact hacc c (List.mem_reverse.mp hc)
  | cons x xs ih =>
    rw [runsAux] at hr
    by_cases hp : p x
    · rw [if_pos hp] at hr
      refine ih (x :: acc) ?_ hr
      intro c hc
      rcases List.mem_cons.mp hc with h | h
      · rw [h]; exact hp
      · exact hacc c h
    · rw [if_neg hp] at hr
      by_cases ha : acc.isEmpty
      · rw [if_pos ha] at hr
        exact ih [] (by simp) hr
      · rw [if_neg ha] at hr
        rcases List.mem_cons.mp hr with h | h
        · subst h
          refine ⟨?_, ?_⟩
          · simp only [ne_eq, List.reverse_eq_nil_iff]
            intro hc
            rw [hc] at ha
            exact ha rfl
          · intro c hc
            exact hacc c (List.mem_reverse.mp hc)
        · exact ih [] (by simp) h

theorem lowerWords_invariant (text : String) (w : String) (hw : w ∈ lowerWords text) :
    w.data ≠ [] ∧ ∀ c ∈ w.data, isWordChar c = true ∧ c.isUpper = false := by
  rcases List.mem_map.mp hw with ⟨w0, hw0, hmap⟩
  rcases List.mem_map.mp hw0 with ⟨r, hr, hmk⟩
  have hrun := runsAux_mem isWordChar text.data [] (by simp) r hr
  subst hmk
  subst hmap
  refine ⟨?_, ?_⟩
  · simp only [ne_eq, List.map_eq_nil_iff]
    exact hrun.1
  · intro c hc
    rcases List.mem_map.mp hc with ⟨c0, hc0, hlow⟩
    subst hlow
    exact isWordChar_toLower c0 (hrun.2 c0 hc0)

/-! Membership in the bucket structure, one insertion at a time. -/

theorem mem_ite_add (ws : List String) (w x : String) :
    x ∈ (if w ∈ ws then ws else ws ++ [w]) ↔ x ∈ ws ∨ x = w := by
  by_cases h : w ∈ ws
  · rw [if_pos h]
    constructor
    · exact Or.inl
    · rintro (hx | rfl)
      · exact hx
      · exact h
  · rw [if_neg h]
    simp [List.mem_append]

theorem getBucket_nil (k : Char) : getBucket [] k = [] := rfl

theorem getBucket_cons_self (k : Char) (ws : List String) (rest : Buckets) :
    getBucket ((k, ws) :: rest) k = ws := by
  simp [getBucket, bucketFind]

theorem getBucket_cons_ne (k0 k : Char) (ws : List String) (rest : Buckets)
    (h : ¬ k0 = k) : getBucket ((k0, ws) :: rest) k = getBucket rest k := by
  simp [getBucket, bucketFind, h]

theorem mem_getBucket_addToBucket (b : Buckets) (k : Char) (w : String) (k' : Char)
    (x : String) :
    x ∈ getBucket (addToBucket b k w) k' ↔
      x ∈ getBucket b k' ∨ (k' = k ∧ x = w) := by
  induction b with
  | nil =>
    show x ∈ getBucket [(k, [w])] k' ↔ _
    by_cases h : k = k'
    · subst h
      rw [getBucket_cons_self, getBucket_nil]
      simp [eq_comm]
    · rw [getBucket_cons_ne k k' [w] [] h]
      have h' : ¬ (k' = k ∧ x = w) := by
        rintro ⟨rfl, _⟩
        exact h rfl
      simp [h']
  | cons hd rest ih =>
    obtain ⟨k0, ws⟩ := hd
    by_cases h1 : k0 = k
    · subst h1
      rw [show addToBucket ((k0, ws) :: rest) k0 w
          = (k0, if w ∈ ws then ws else ws ++ [w]) :: rest by
        rw [addToBucket, if_pos rfl]]
      by_cases h2 : k0 = k'
      · subst h2
        rw [getBucket_cons_self, getBucket_cons_self, mem_ite_add]
        simp
      · rw [getBucket_cons_ne _ _ _ _ h2, getBucket_cons_ne _ _ _ _ h2]
        have h' : ¬ (k' = k0 ∧ x = w) := by
          rintro ⟨rfl, _⟩
          exact h2 rfl
        simp [h']
    · rw [show addToBucket ((k0, ws) :: rest) k w
          = (k0, ws) :: addToBucket rest k w by
        rw [addToBucket, if_neg h1]]
      by_cases h2 : k0 = k'
      · subst h2
        rw [getBucket_cons_self, getBucket_cons_self]
        have h' : ¬ (k0 = k ∧ x = w) := by
          rintro ⟨hk, _⟩
          exact h1 hk
        simp [h']
      · rw [getBucket_cons_ne _ _ _ _ h2, getBucket_cons_ne _ _ _ _ h2]
        exact ih

theorem mem_bucketKeys_addToBucket (b : Buckets) (k : Char) (w : String) (k' : Char) :
    k' ∈ bucketKeys (addToBucket b k w) ↔ k' ∈ bucketKeys b ∨ k' = k := by
  induction b with
  | nil => simp [addToBucket, bucketKeys]
  | cons hd rest ih =>
    obtain ⟨k0, ws⟩ := hd
    by_cases h1 : k0 = k
    · subst h1
      rw [show addToBucket ((k0, ws) :: rest) k0 w
          = (k0, if w ∈ ws then ws else ws ++ [w]) :: rest by
        rw [addToBucket, if_pos rfl]]
      simp only [bucketKeys, List.map_cons, List.mem_cons]
      constructor
      · rintro (rfl | h)
        · left; left; rfl
        · left; right; exact h
      · rintro ((rfl | h) | rfl)
        · left; rfl
        · right; exact h
        · left; rfl
    · rw [show addToBucket ((k0, ws) :: rest) k w
          = (k0, ws) :: addToBucket rest k w by
        rw [addToBucket, if_neg h1]]
      simp only [bucketKeys, List.map_cons, List.mem_cons] at ih ⊢
      rw [ih]
      tauto

theorem key_mem_of_mem_getBucket (b : Buckets) (k : Char) (x : String)
    (h : x ∈ getBucket b k) : k ∈ bucketKeys b := by
  induction b with
  | nil => simp [getBucket, bucketFind] at h
  | cons hd rest ih =>
    obtain ⟨k0, ws⟩ := hd
    by_cases h1 : k0 = k
    · subst h1
      simp [bucketKeys]
    · rw [getBucket_cons_ne _ _ _ _ h1] at h
      simp only [bucketKeys, List.map_cons, List.mem_cons]
      right
      exact ih h

theorem mem_getBucket_insertToken (b : Buckets) (w : String) (k : Char) (x : String) :
    x ∈ getBucket (insertToken b w) k ↔
      x ∈ getBucket b k ∨ (x = w ∧ k = firstChar w) := by
  rw [insertToken, mem_getBucket_addToBucket]
  tauto

theorem mem_getBucket_foldl (ts : List String) (b : Buckets) (k : Char) (x : String) :
    x ∈ getBucket (ts.foldl insertToken b) k ↔
      x ∈ getBucket b k ∨ (x ∈ ts ∧ k = firstChar x) := by
  induction ts generalizing b with
  | nil => simp
  | cons w ts ih =>
    rw [List.foldl_cons, ih, mem_getBucket_insertToken]
    constructor
    · rintro ((hb | ⟨rfl, hk⟩) | ⟨hts, hk⟩)
      · left; exact hb
      · right; exact ⟨List.mem_cons_self _ _, hk⟩
      · right; exact ⟨List.mem_cons_of_mem _ hts, hk⟩
    · rintro (hb | ⟨hmem, hk⟩)
      · left; left; exact hb
      · rcases List.mem_cons.mp hmem with rfl | hts
        · left; right; exact ⟨rfl, hk⟩
        · right; exact ⟨hts, hk⟩

theorem mem_getBucket_buildBuckets (ts : List String) (k : Char) (x : String) :
    x ∈ getBucket (buildBuckets ts) k ↔ x ∈ ts ∧ k = firstChar x := by
  rw [buildBuckets, mem_getBucket_foldl]
  simp [getBucket_nil]

theorem mem_bucketKeys_foldl (ts : List String) (b : Buckets) (k : Char) :
    k ∈ bucketKeys (ts.foldl insertToken b) ↔
      k ∈ bucketKeys b ∨ ∃ w ∈ ts, firstChar w = k := by
  induction ts generalizing b with
  | nil => simp
  | cons w ts ih =>
    rw [List.foldl_cons, ih, insertToken, mem_bucketKeys_addToBucket]
    constructor
    · rintro ((hb | rfl) | ⟨w0, hw0, hk⟩)
      · left; exact hb
      · right; exact ⟨w, List.mem_cons_self _ _, rfl⟩
      · right; exact ⟨w0, List.mem_cons_of_mem _ hw0, hk⟩
    · rintro (hb | ⟨w0, hw0, hk⟩)
      · left; left; exact hb
      · rcases List.mem_cons.mp hw0 with rfl | hts
        · left; right; exact hk.symm
        · right; exact ⟨w0, hts, hk⟩

theorem mem_bucketKeys_buildBuckets (ts : List String) (k : Char) :
    k ∈ bucketKeys (buildBuckets ts) ↔ ∃ w ∈ ts, firstChar w = k := by
  rw [buildBuckets, mem_bucketKeys_foldl]
  simp [bucketKeys]

/-! Characterization of the classifier output. -/

theorem mem_readDictionary (inp dict : Buckets) (x : String) :
    x ∈ readDictionary inp dict ↔
      (∃ k, k ∈ bucketKeys inp ∧ k ∈ bucketKeys dict ∧
        x ∈ getBucket inp k ∧ x ∉ getBucket dict k) ∨
      (∃ k, k ∈ bucketKeys inp ∧ k ∉ bucketKeys dict ∧
        k.isDigit = false ∧ x ∈ getBucket inp k) := by
  rw [readDictionary]
  simp only [mem_sortTokens, List.mem_append, List.mem_flatMap, List.mem_filter,
    mem_sortChars, decide_eq_true_eq, Bool.not_eq_true', and_assoc]

theorem sorted_readDictionary (inp dict : Buckets) :
    List.Sorted (fun a b => strLeB a b = true) (readDictionary inp dict) := by
  rw [readDictionary]
  exact sorted_sortTokens _

theorem mem_classifyTokens (inp dict : List String) (x : String) :
    x ∈ classifyTokens inp dict ↔
      x ∈ inp ∧ x ∉ dict ∧
        ((∃ d ∈ dict, firstChar d = firstChar x) ∨ (firstChar x).isDigit = false) := by
  rw [classifyTokens, mem_readDictionary]
  constructor
  · rintro (⟨k, _, hkd, hx, hxd⟩ | ⟨k, _, hkd, hdig, hx⟩)
    · rcases (mem_getBucket_buildBuckets inp k x).mp hx with ⟨hxi, rfl⟩
      refine ⟨hxi, ?_, ?_⟩
      · intro hxdict
        exact hxd ((mem_getBucket_buildBuckets dict _ x).mpr ⟨hxdict, rfl⟩)
      · left
        exact (mem_bucketKeys_buildBuckets dict _).mp hkd
    · rcases (mem_getBucket_buildBuckets inp k x).mp hx with ⟨hxi, rfl⟩
      refine ⟨hxi, ?_, Or.inr hdig⟩
      intro hxdict
      exact hkd ((mem_bucketKeys_buildBuckets dict _).mpr ⟨x, hxdict, rfl⟩)
  · rintro ⟨hxi, hxd, hcase⟩
    have hxin : x ∈ getBucket (buildBuckets inp) (firstChar x) :=
      (mem_getBucket_buildBuckets inp _ x).mpr ⟨hxi, rfl⟩
    have hkin : firstChar x ∈ bucketKeys (buildBuckets inp) :=
      key_mem_of_mem_getBucket _ _ _ hxin
    have hnotb : x ∉ getBucket (buildBuckets dict) (firstChar x) := by
      intro hc
      exact hxd ((mem_getBucket_buildBuckets dict _ x).mp hc).1
    by_cases hkd : firstChar x ∈ bucketKeys (buildBuckets dict)
    · left
      exact ⟨firstChar x, hkin, hkd, hxin, hnotb⟩
    · right
      rcases hcase with ⟨d, hd, hfc⟩ | hdig
      · exact absurd ((mem_bucketKeys_buildBuckets dict _).mpr ⟨d, hd, hfc⟩) hkd
      · exact ⟨firstChar x, hkin, hkd, hdig, hxin⟩

/-! Idempotence of insertion into the bucket structure. -/

theorem mem_getBucket_addToBucket_self (b : Buckets) (k : Char) (w : String) :
    w ∈ getBucket (addToBucket b k w) k :=
  (mem_getBucket_addToBucket b k w k w).mpr (Or.inr ⟨rfl, rfl⟩)

theorem addToBucket_idem (b : Buckets) (k : Char) (w : String) :
    addToBucket (addToBucket b k w) k w = addToBucket b k w := by
  induction b with
  | nil =>
    simp [addToBucket]
  | cons hd rest ih =>
    obtain ⟨k0, ws⟩ := hd
    by_cases h1 : k0 = k
    · subst h1
      rw [show addToBucket ((k0, ws) :: rest) k0 w
          = (k0, if w ∈ ws then ws else ws ++ [w]) :: rest by
        rw [addToBucket, if_pos rfl]]
      rw [addToBucket, if_pos rfl]
      have hmem : w ∈ (if w ∈ ws then ws else ws ++ [w]) :=
        (mem_ite_add ws w w).mpr (Or.inr rfl)
      rw [if_pos hmem]
    · rw [show addToBucket ((k0, ws) :: rest) k w
          = (k0, ws) :: addToBucket rest k w by
        rw [addToBucket, if_neg h1]]
      rw [addToBucket, if_neg h1, ih]

theorem insertToken_idem (b : Buckets) (w : String) :
    insertToken (insertToken b w) w = insertToken b w :=
  addToBucket_idem b (firstChar w) w

theorem repeatInsert_eq_insertToken (n : Nat) (h : 1 ≤ n) (b : Buckets) (w : String) :
    repeatInsert n b w = insertToken b w := by
  induction n with
  | zero => omega
  | succ m ih =>
    rw [repeatInsert]
    rcases Nat.eq_or_lt_of_le h with h1 | h1
    · have : m = 0 := by omega
      subst this
      rfl
    · rw [ih (by omega), insertToken_idem]

/-! The cost of a membership query on the vocabulary tree. -/

theorem trieContainsSteps_le (cs : List Char) (t : Trie) :
    trieContainsSteps cs t ≤ cs.length + 1 := by
  induction cs generalizing t with
  | nil =>
    rw [trieContainsSteps]
    simp
  | cons c cs ih =>
    obtain ⟨e, ch⟩ := t
    rw [trieContainsSteps]
    cases h : childrenFind ch c with
    | none => simp
    | some t2 =>
      have := ih t2
      simp only [List.length_cons]
      omega

/-! The first character of a purely numeric token is a digit. -/

theorem firstChar_isDigit_of_numeric (w : String) (h : isNumericToken w = true) :
    (firstChar w).isDigit = true := by
  rw [isNumericToken] at h
  cases hw : w.data with
  | nil =>
    rw [hw] at h
    simp at h
  | cons c cs =>
    rw [hw] at h
    simp only [List.isEmpty_cons, Bool.not_false, Bool.true_and, List.all_cons,
      Bool.and_eq_true] at h
    simp only [firstChar, hw, List.headD_cons]
    exact h.1

/-! Claim theorems. -/

/-- Claim C1, counterexample: the vocabulary `["1a"]` contains neither `"123"`
nor `"cat9"`, yet the purely numeric token `"123"` is reported unknown.  The
code only skips a whole missing bucket whose key character is a digit; when
the digit key is shared with a dictionary bucket (here `'1'`, from `"1a"`),
the numeric token is compared and reported like any other token. -/
theorem numericToken_reported_counterexample :
    "123" ∈ classifyTokens ["123", "cat9"] ["1a"] := by decide

/-- Claim C1, amended: a purely numeric token (matching `^[0-9]+$`) is never
reported unknown provided no dictionary token starts with the same character;
in particular, classifying `{"123", "cat9"}` against the vocabulary `{"dog"}`
(which contains neither token and no digit-initial token) reports `"cat9"`
but not `"123"`. -/
theorem numericToken_excluded_of_no_shared_digit_key :
    (∀ (inp dict : List String) (w : String), isNumericToken w = true →
      (∀ d ∈ dict, firstChar d ≠ firstChar w) → w ∉ classifyTokens inp dict) ∧
    classifyTokens ["123", "cat9"] ["dog"] = ["cat9"] := by
  constructor
  · intro inp dict w hnum hkey hmem
    rcases (mem_classifyTokens inp dict w).mp hmem with ⟨_, _, hcase⟩
    rcases hcase with ⟨d, hd, hfc⟩ | hdig
    · exact hkey d hd hfc
    · rw [firstChar_isDigit_of_numeric w hnum] at hdig
      exact Bool.noConfusion hdig
  · decide

/-- Claim C1, witness: the amended exclusion at a concrete input. -/
theorem numericToken_excluded_witness :
    "123" ∉ classifyTokens ["123"] ["dog"] :=
  numericToken_excluded_of_no_shared_digit_key.1 ["123"] ["dog"] "123"
    (by decide) (by decide)

/-- Claim C2, counterexample: `"9cat"` is not purely numeric, yet classifying
it against the empty vocabulary reports nothing, because its whole bucket is
skipped: the bucket key `'9'` is a digit and is absent from the (empty)
dictionary keys. -/
theorem emptyVocab_nonNumeric_not_reported_counterexample :
    isNumericToken "9cat" = false ∧ classifyTokens ["9cat"] [] = [] := by decide

/-- Claim C2, amended: against a vocabulary containing zero tokens, every
input token whose first character is not a digit is reported unknown; in
particular, with an empty dictionary and input text `"hello world"` the
unknown list is `["hello", "world"]`. -/
theorem emptyVocab_reports_nondigit_tokens :
    (∀ (ts : List String) (w : String), w ∈ ts → (firstChar w).isDigit = false →
      w ∈ classifyTokens ts []) ∧
    spellcheck "hello world" "" = ["hello", "world"] := by
  constructor
  · intro ts w hw hdig
    exact (mem_classifyTokens ts [] w).mpr ⟨hw, by simp, Or.inr hdig⟩
  · decide

/-- Claim C2, witness: the amended statement at a concrete input. -/
theorem emptyVocab_reports_witness :
    "hello" ∈ classifyTokens ["hello"] [] :=
  emptyVocab_reports_nondigit_tokens.1 ["hello"] "hello" (by decide) (by decide)

/-- Claim C3, counterexample: `"123"` was never inserted into the (empty)
vocabulary, yet the classifier does not report it — it is classified as known
without ever having been inserted, refuting the stated equivalence. -/
theorem known_without_insertion_counterexample :
    "123" ∉ classifyTokens ["123"] [] ∧ "123" ∉ ([] : List String) := by decide

/-- Claim C3, amended: membership in the bucket structure itself is exact for
every token (a token is in the structure iff it was inserted); and an input
token is classified as known by the classifier exactly when it was inserted
into the vocabulary, provided its first character is not a digit (a
digit-initial token absent from the vocabulary is classified known whenever no
vocabulary token starts with that digit). -/
theorem membership_correctness_amended (dict ts : List String) (w : String) :
    (containsToken (buildBuckets dict) w = true ↔ w ∈ dict) ∧
    (w ∈ ts → (firstChar w).isDigit = false →
      (w ∉ classifyTokens ts dict ↔ w ∈ dict)) := by
  constructor
  · rw [containsToken, decide_eq_true_eq, mem_getBucket_buildBuckets]
    simp
  · intro hw hdig
    rw [mem_classifyTokens]
    constructor
    · intro hnot
      by_contra hnotd
      exact hnot ⟨hw, hnotd, Or.inr hdig⟩
    · intro hd hcontra
      exact hcontra.2.1 hd

/-- Claim C3, witness: the amended statement at a concrete input. -/
theorem membership_correctness_witness :
    containsToken (buildBuckets ["ab"]) "ab" = true ∧
    "ab" ∉ classifyTokens ["ab"] ["ab"] :=
  ⟨(membership_correctness_amended ["ab"] ["ab"] "ab").1.mpr (by decide),
   ((membership_correctness_amended ["ab"] ["ab"] "ab").2 (by decide)
     (by decide)).mpr (by decide)⟩

/-- Claim C4: inserting the same token `N ≥ 1` times into the bucket
structure yields the same membership behavior, on every query token, as
inserting it once (in fact the structures are equal). -/
theorem insert_idempotent (n : Nat) (h : 1 ≤ n) (b : Buckets) (w q : String) :
    containsToken (repeatInsert n b w) q = containsToken (repeatInsert 1 b w) q := by
  rw [repeatInsert_eq_insertToken n h, repeatInsert_eq_insertToken 1 (le_refl 1)]

/-- Claim C4, witness: idempotence at a concrete input. -/
theorem insert_idempotent_witness :
    1 ≤ 2 ∧ containsToken (repeatInsert 2 [] "aa") "aa"
      = containsToken (repeatInsert 1 [] "aa") "aa" :=
  ⟨by decide, insert_idempotent 2 (by decide) [] "aa" "aa"⟩

/-- Claim C5: the classifier output is sorted ascending by token value (the
code-point lexicographic order Python `sorted` uses on strings), and
classifying the same pair twice yields identical output, both at the
token-set level and for the whole text pipeline. -/
theorem classifier_sorted_deterministic (inp dict : List String) (it dt : String) :
    List.Sorted (fun a b => strLeB a b = true) (classifyTokens inp dict) ∧
    List.Sorted (fun a b => strLeB a b = true) (spellcheck it dt) ∧
    classifyTokens inp dict = classifyTokens inp dict ∧
    spellcheck it dt = spellcheck it dt :=
  ⟨sorted_readDictionary _ _, sorted_readDictionary _ _, rfl, rfl⟩

/-- Claim C6: an empty input token set — in particular the one produced from
the empty input text — yields an empty unknown list against every vocabulary,
with no error. -/
theorem empty_input_empty_output (dict : List String) (dt : String) :
    classifyTokens [] dict = [] ∧ spellcheck "" dt = [] :=
  ⟨rfl, rfl⟩

/-- Claim C7: tokenizing `"Thiss is a tst of the systm."` and classifying it
against the vocabulary built from `{"this","is","a","test","of","the",
"system"}` yields exactly `["systm", "thiss", "tst"]`, in that order. -/
theorem end_to_end_scenario :
    readDictionary (processInput "Thiss is a tst of the systm.")
      (buildBuckets ["this", "is", "a", "test", "of", "the", "system"])
      = ["systm", "thiss", "tst"] := by decide

/-- Claim C8: a membership query on the vocabulary tree visits at most
`length + 1` nodes, a bound proportional to the query token's length only —
it does not mention the vocabulary, so it holds uniformly however many tokens
were inserted. -/
theorem trieContains_cost_linear (vocab : List String) (q : String) :
    trieContainsSteps q.data (buildTrie vocab) ≤ q.length + 1 :=
  trieContainsSteps_le q.data (buildTrie vocab)

/-- Claim C9: `check_file_format` divides the line count by the word count
with no guard, so every source with zero words (empty, or only blank lines)
makes it fail with a division-by-zero error (`none` here) instead of
returning a ratio value. -/
theorem checkFileFormat_zero_words_fails (lines : List String)
    (h : totalWords lines = 0) : checkFileFormat lines = none := by
  simp [checkFileFormat, h]

/-- Claim C9, witness: the failure at a concrete two-line source consisting of
an empty line and a line of blanks. -/
theorem checkFileFormat_zero_words_witness :
    totalWords ["", "   "] = 0 ∧ checkFileFormat ["", "   "] = none :=
  ⟨by decide, checkFileFormat_zero_words_fails ["", "   "] (by decide)⟩

/-- Claim C10: every token stored by `process_input` is a nonempty lowercase
word (every character in the `\w` class and none uppercase) and lives exactly
in the bucket keyed by its own first character. -/
theorem processInput_bucket_invariant (text : String) (k : Char) (w : String)
    (h : w ∈ getBucket (processInput text) k) :
    w ≠ "" ∧ (∀ c ∈ w.data, isWordChar c = true ∧ c.isUpper = false) ∧
    firstChar w = k := by
  rw [processInput] at h
  rcases (mem_getBucket_buildBuckets _ k w).mp h with ⟨hw, rfl⟩
  have hinv := lowerWords_invariant text w hw
  refine ⟨?_, hinv.2, rfl⟩
  intro hc
  apply hinv.1
  rw [hc]

/-- Claim C10, witness: the invariant at a concrete input text. -/
theorem processInput_bucket_invariant_witness :
    "ab1" ≠ "" ∧
    (∀ c ∈ ("ab1" : String).data, isWordChar c = true ∧ c.isUpper = false) ∧
    firstChar "ab1" = 'a' :=
  processInput_bucket_invariant "Ab1 x" 'a' "ab1" (by decide)

end Spellcheck
